import Mathlib

/-!
# Transcription pipeline: job resolver, status handlers and marker sweep

A shallow embedding of the three Go programs of the repository

* `frontend/main.go`  (`resolveProgress`, `job.Status`, `job.Percent`, `getStatus`,
  `indexHandler`, `statusHandler`),
* `track-progress/main.go` (`TrackProgress`),
* `recognize/main.go` (the marker key written by `processAudio`),

followed by theorems about them.

Modelling conventions.

* A `time.Time` is the instant it denotes, an `Int`; `Before` is `<` on instants.
* A `*storage.ObjectAttrs` that may be `nil` is an `Option ObjectAttrs`.
* Go strings are Lean strings; `strings.HasSuffix` compares the trailing characters.
* `sort.Slice` and the iteration order of `range` over a map belong to the Go runtime.
  They are parameters (`Runtime`), constrained only by what Go promises (`Runtime.Valid`):
  `sort.Slice` returns a permutation ordered by `less`, with no promise on ties, and
  `range` visits every entry of the map exactly once, in an unspecified order.
* A Go run-time panic (index out of range) is the result `none`.
* Remote services (storage, speech, template rendering) are oracles passed as arguments.
-/

namespace Frontend

/-! ## Data model (`frontend/main.go`, lines 191-206) -/

/-- An `error` value; `iterator.Done` is the end-of-listing sentinel. -/
inductive Error where
  | iteratorDone : Error
  | other (msg : String) : Error
  deriving DecidableEq, Repr

/-- The text of `err.Error()`. -/
def Error.message : Error → String
  | .iteratorDone => "no more items in iterator"
  | .other msg => msg

/-- A `context.Context`, an opaque token that is only passed along. -/
structure Context where
  token : Nat
  deriving DecidableEq, Repr

/-- The fields of `storage.ObjectAttrs` that the program reads. -/
structure ObjectAttrs where
  Name : String
  Created : Int
  deriving DecidableEq, Repr

/-- The Go struct `object`: attributes, directory part and base name of the key. -/
structure object where
  obj : ObjectAttrs
  ID : String
  Name : String
  deriving DecidableEq, Repr

/-- The Go struct `job`. -/
structure job where
  ctx : Context
  Uploaded : Int
  ID : String
  Name : String
  Original : Option ObjectAttrs
  Flac : Option ObjectAttrs
  Progress : Option ObjectAttrs
  Transcript : Option ObjectAttrs
  deriving DecidableEq, Repr

/-- Go `strings.HasSuffix`:
`len(s) >= len(suffix) && s[len(s)-len(suffix):] == suffix`. -/
def HasSuffix (s suffix : String) : Bool :=
  decide (s.data.length ≥ suffix.data.length) &&
    decide (s.data.drop (s.data.length - suffix.data.length) = suffix.data)

/-- The method `job.Status` (lines 219-230). -/
def job.Status (j : job) : String :=
  if j.Transcript ≠ none then "done"
  else if j.Progress ≠ none then "transcribing"
  else if j.Flac ≠ none then "converting"
  else "queued"

/-- The method `job.Percent` (lines 236-246); `getProgress` is the remote progress query of
lines 318-352, and `fmt.Sprintf("%d%%", perc)` prints the decimal number and a percent sign. -/
def job.Percent (getProgress : Context → ObjectAttrs → Except Error Int) (j : job) : String :=
  match j.Progress with
  | none => ""
  | some p =>
    match getProgress j.ctx p with
    | .error _ => "?"
    | .ok perc => toString perc ++ "%"

/-! ## The Go runtime: `sort.Slice` and map iteration -/

/-- What the program takes from the Go runtime. -/
structure Runtime where
  /-- The function `sort.Slice(x, less)`, returning the slice as it is afterwards. -/
  sortSlice : {α : Type} → (α → α → Bool) → List α → List α
  /-- The order in which `range` visits the entries of a map, given as an association list. -/
  mapRange : List (String × List object) → List (String × List object)
  /-- The library function `path.Dir`. -/
  pathDir : String → String
  /-- The library function `path.Base`. -/
  pathBase : String → String

/-- The guarantees of the Go runtime: `sort.Slice` permutes the slice, leaves it ordered when
`less` compares a time key with `Before`, and `range` visits each map entry exactly once. -/
structure Runtime.Valid (rt : Runtime) : Prop where
  sortSlice_perm : ∀ {α : Type} (less : α → α → Bool) (l : List α),
    (rt.sortSlice less l).Perm l
  sortSlice_sorted : ∀ {α : Type} (key : α → Int) (l : List α),
    (rt.sortSlice (fun a b => decide (key a < key b)) l).Pairwise (fun a b => key a ≤ key b)
  mapRange_perm : ∀ m, (rt.mapRange m).Perm m

/-- The inner loop of Go insertion sort,
`for j := i; j > a && less(data[j], data[j-1]); j-- { swap(j, j-1) }`,
on the already sorted prefix held in reverse (nearest element first). -/
def sink {α : Type} (less : α → α → Bool) (x : α) : List α → List α
  | [] => [x]
  | y :: ys => if less x y then y :: sink less x ys else x :: y :: ys

/-- Go insertion sort, the algorithm `sort.Slice` runs on short slices. -/
def insertionSort {α : Type} (less : α → α → Bool) (l : List α) : List α :=
  (l.foldl (fun acc x => sink less x acc) []).reverse

/-- The part of a key after its last slash (`path.Base` on a key `dir/base`). -/
def keyBase (key : String) : String :=
  String.mk ((key.data.reverse.takeWhile (fun c => c != '/')).reverse)

/-- The part of a key before its last slash (`path.Dir` on a key `dir/base`). -/
def keyDir (key : String) : String :=
  String.mk ((key.data.reverse.dropWhile (fun c => c != '/')).drop 1).reverse

/-- A runtime that sorts by insertion and ranges over a map in insertion order. Its
`pathDir` and `pathBase` split a key of the shape `dir/base` at its last slash. -/
def stdRuntime : Runtime where
  sortSlice := fun less l => insertionSort less l
  mapRange := fun m => m
  pathDir := keyDir
  pathBase := keyBase

/-- A runtime that sorts by insertion and ranges over a map in reverse insertion order. -/
def revRuntime : Runtime where
  sortSlice := fun less l => insertionSort less l
  mapRange := fun m => m.reverse
  pathDir := keyDir
  pathBase := keyBase

/-! ## `resolveProgress` (lines 248-316) -/

/-- The comparison of line 265. -/
def lessCreated (a b : object) : Bool := decide (a.obj.Created < b.obj.Created)

/-- The comparison of line 312. -/
def lessUploaded (a b : job) : Bool := decide (a.Uploaded < b.Uploaded)

/-- The map read `objectsById[k]`, the nil slice when the key is absent. -/
def mapGet (m : List (String × List object)) (k : String) : List object :=
  match m.find? (fun e => e.1 == k) with
  | some e => e.2
  | none => []

/-- The map write `objectsById[k] = v`. -/
def mapSet (m : List (String × List object)) (k : String) (v : List object) :
    List (String × List object) :=
  match m with
  | [] => [(k, v)]
  | e :: rest => if e.1 = k then (k, v) :: rest else e :: mapSet rest k v

/-- The grouping loop of lines 268-271. -/
def objectsById (objects : List object) : List (String × List object) :=
  objects.foldl (fun m obj => mapSet m obj.ID (mapGet m obj.ID ++ [obj])) []

/-- The body of the loop over the map (lines 277-309) for one entry `id, set`.
`set[0]` panics on an empty slice. -/
def resolveJob (ctx : Context) (id : String) (set : List object) : Option job :=
  match set with
  | [] => none
  | first :: _ =>
    let job : job :=
      { ctx := ctx, ID := id, Uploaded := first.obj.Created, Name := first.Name,
        Original := some first.obj, Flac := none, Progress := none, Transcript := none }
    match set.find? (fun obj => HasSuffix obj.Name ".txt") with
    | some obj => some { job with Transcript := some obj.obj }
    | none =>
      match set.find? (fun obj => HasSuffix obj.Name ".progress") with
      | some obj => some { job with Progress := some obj.obj }
      | none =>
        match set.find? (fun obj => HasSuffix obj.Name ".flac") with
        | some obj => some { job with Flac := some obj.obj }
        | none => some job

/-- The loop `for id, set := range objectsById`, over the entries in the order visited;
every entry appends one job. -/
def rangeJobs (ctx : Context) : List (String × List object) → Option (List job)
  | [] => some []
  | e :: rest =>
    match resolveJob ctx e.1 e.2 with
    | none => none
    | some j =>
      match rangeJobs ctx rest with
      | none => none
      | some js => some (j :: js)

/-- The function `resolveProgress`. -/
def resolveProgress (rt : Runtime) (ctx : Context) (objects : List object) :
    Option (List job) :=
  let objects := rt.sortSlice lessCreated objects
  let byId := objectsById objects
  match rangeJobs ctx (rt.mapRange byId) with
  | none => none
  | some jobs => some (rt.sortSlice lessUploaded jobs)


/-! ## `getStatus` and the two status handlers (lines 132-189) -/

/-- The storage service as `getStatus` sees it: the error of `storage.NewClient` (if any), the
objects the bucket iterator yields, and the error with which `it.Next()` ends the listing,
`iterator.Done` at the regular end. -/
structure Storage where
  newClient : Option Error
  items : List ObjectAttrs
  listEnd : Error

/-- The listing loop of lines 158-170: `objects` is the slice built so far. -/
def listObjects (rt : Runtime) (listEnd : Error) :
    List ObjectAttrs → List object → List object × Option Error
  | [], objects => if listEnd = Error.iteratorDone then (objects, none) else ([], some listEnd)
  | attrs :: rest, objects =>
    let id := rt.pathDir attrs.Name
    let name := rt.pathBase attrs.Name
    listObjects rt listEnd rest (objects ++ [{ obj := attrs, ID := id, Name := name }])

/-- The function `getStatus` (lines 148-173), returning the Go pair `(jobs, err)`; a nil
slice is the empty list. -/
def getStatus (rt : Runtime) (ctx : Context) (storage : Storage) :
    Option (List job × Option Error) :=
  match storage.newClient with
  | some err => some ([], some err)
  | none =>
    match listObjects rt storage.listEnd storage.items [] with
    | (_, some err) => some ([], some err)
    | (objects, none) =>
      match resolveProgress rt ctx objects with
      | none => none
      | some jobs => some (jobs, none)

/-- An HTTP response: status code and body. -/
structure Response where
  status : Nat
  body : String
  deriving DecidableEq, Repr

/-- Go `http.Error(w, msg, code)`: the status code and the message on a line. -/
def httpErrorResponse (msg : String) (code : Nat) : Response :=
  { status := code, body := msg ++ "\n" }

/-- Go `http.StatusInternalServerError`. -/
def StatusInternalServerError : Nat := 500

/-- Go `http.StatusOK`, the status of a response that is written without `WriteHeader`. -/
def StatusOK : Nat := 200

/-- The function `httpError` (lines 354-357). -/
def httpError (err : Error) : Response :=
  httpErrorResponse err.message StatusInternalServerError

/-- The function `indexHandler` (lines 132-146). `executeTemplate name jobs` is
`tmpl().ExecuteTemplate(buf, name, ...)` on the job list, giving the buffer or the error.
The `err` of `getStatus` is assigned and then overwritten by line 136 without being read. -/
def indexHandler (rt : Runtime) (ctx : Context) (storage : Storage)
    (executeTemplate : String → List job → Except Error String) : Option Response :=
  match getStatus rt ctx storage with
  | none => none
  | some (jobs, _) =>
    match executeTemplate "index.html" jobs with
    | .error err => some (httpErrorResponse err.message StatusInternalServerError)
    | .ok buf => some { status := StatusOK, body := buf }

/-- The function `statusHandler` (lines 175-189). -/
def statusHandler (rt : Runtime) (ctx : Context) (storage : Storage)
    (executeTemplate : String → List job → Except Error String) : Option Response :=
  match getStatus rt ctx storage with
  | none => none
  | some (_, some err) => some (httpError err)
  | some (jobs, none) =>
    match executeTemplate "table" jobs with
    | .error err => some (httpErrorResponse err.message StatusInternalServerError)
    | .ok buf => some { status := StatusOK, body := buf }

/-- A storage service whose listing fails at the first `it.Next()`. -/
def brokenStorage : Storage :=
  { newClient := none, items := [], listEnd := Error.other "storage: listing failed" }

/-- A template that renders the job names between two table tags. -/
def plainTemplate (_ : String) (jobs : List job) : Except Error String :=
  .ok ("<table>" ++ String.join (jobs.map (fun j => "<tr>" ++ j.Name ++ "</tr>")) ++ "</table>")

/-- The object with key `id/name` created at instant `t`. -/
def mkObject (id name : String) (t : Int) : object :=
  { obj := { Name := id ++ "/" ++ name, Created := t }, ID := id, Name := name }

end Frontend

namespace Recognize

/-- The key under which `processAudio` writes the marker of the converted object `name`
(`recognize/main.go`, line 72): `"progress-" + e.Name`. -/
def markerName (name : String) : String := "progress-" ++ name

end Recognize

namespace Trackprogress

open Frontend (Error)

/-! ## `TrackProgress` (`track-progress/main.go`) -/

/-- A `speechpb.SpeechRecognitionAlternative`, read through `GetTranscript`. -/
structure SpeechRecognitionAlternative where
  Transcript : String
  deriving DecidableEq, Repr

/-- A `speechpb.SpeechRecognitionResult`, read through `GetAlternatives`. -/
structure SpeechRecognitionResult where
  Alternatives : List SpeechRecognitionAlternative
  deriving DecidableEq, Repr

/-- A `speechpb.LongRunningRecognizeResponse`, read through `GetResults`. -/
structure LongRunningRecognizeResponse where
  Results : List SpeechRecognitionResult
  deriving DecidableEq, Repr

/-- The behaviour of the storage and speech services during one call. The number `k` is the
index of the loop iteration that makes the request, so that the services may answer every
request differently. -/
structure Services where
  /-- The error of `speech.NewClient`, if any. -/
  speechNewClient : Option Error
  /-- The error of `storage.NewClient`, if any. -/
  storageNewClient : Option Error
  /-- The `k`-th call of `iter.Next()`: the name of the next marker, or the error, which is
  `iterator.Done` at the end of the listing. -/
  iterNext : Nat → Except Error String
  /-- The error of `progressObject.NewReader`, if any. -/
  newReader : Nat → String → Option Error
  /-- The result of `ioutil.ReadAll(rd)`. -/
  readAll : Nat → String → Except Error String
  /-- The result of `op.Poll` for an operation name: the response, which is nil while the
  operation is running, or the error. -/
  poll : Nat → String → Except Error (Option LongRunningRecognizeResponse)
  /-- The error, if any, of `fmt.Fprintln(wr, line)` in iteration `k` on a writer that holds
  the bytes `buf`. -/
  fprintln : Nat → String → String → Option Error

/-- What a call has done so far: the number of loop iterations begun, the writers opened
(object name and the bytes written to it) and the objects deleted. -/
structure State where
  round : Nat
  writers : List (String × String)
  deleted : List String
  deriving DecidableEq, Repr

/-- Go `strings.TrimPrefix`. -/
def TrimPrefix (s pre : String) : String :=
  if pre.data.isPrefixOf s.data then String.mk (s.data.drop pre.data.length) else s

/-- The loop over the alternatives of one result (lines 69-74): the bytes in the writer
afterwards and the error that stopped the loop, if any. `Fprintln` writes the text and a
newline; of a failed write nothing is recorded. -/
def writeAlternatives (svc : Services) (k : Nat) :
    List SpeechRecognitionAlternative → String → String × Option Error
  | [], buf => (buf, none)
  | alt :: alts, buf =>
    match svc.fprintln k buf alt.Transcript with
    | some err => (buf, some err)
    | none => writeAlternatives svc k alts (buf ++ (alt.Transcript ++ "\n"))

/-- The loop over the results of the response (lines 67-75). -/
def writeResults (svc : Services) (k : Nat) :
    List SpeechRecognitionResult → String → String × Option Error
  | [], buf => (buf, none)
  | res :: results, buf =>
    match writeAlternatives svc k res.Alternatives buf with
    | (buf1, some err) => (buf1, some err)
    | (buf1, none) => writeResults svc k results buf1

/-- How one pass through the body of a `for` loop ends. -/
inductive Flow where
  /-- The statement `return err`, leaving the function. -/
  | ret (err : Option Error) (st : State) : Flow
  /-- The end of the body: the loop goes round again. -/
  | next (st : State) : Flow
  /-- A `break`, leaving the loop. -/
  | exit (st : State) : Flow
  deriving DecidableEq, Repr

/-- The body of the scan loop (lines 33-80). The deferred `rd.Close()` and `wr.Close()` run
when the function returns and are not part of the state; the error of
`progressObject.Delete` is not looked at by the code, the deletion is recorded. -/
def loopBody (svc : Services) (st : State) : Flow :=
  match svc.iterNext st.round with
  | .error err => .ret (some err) st
  | .ok name =>
    match svc.newReader st.round name with
    | some err => .ret (some err) st
    | none =>
      match svc.readAll st.round name with
      | .error err => .ret (some err) st
      | .ok operationName =>
        match svc.poll st.round operationName with
        | .error err => .ret (some err) st
        | .ok resp =>
          -- `err` is the nil error of `op.Poll` from here on
          let err : Option Error := none
          match resp with
          | some resp =>
            let transcriptName := TrimPrefix name "progress-" ++ ".txt"
            if err ≠ none then .ret err st
            else
              match writeResults svc st.round resp.Results "" with
              | (buf, some werr) =>
                .ret (some werr) { st with writers := st.writers ++ [(transcriptName, buf)] }
              | (buf, none) =>
                .next { round := st.round + 1,
                        writers := st.writers ++ [(transcriptName, buf)],
                        deleted := st.deleted ++ [name] }
          | none => .next { st with round := st.round + 1 }

/-- The loop `for { ... }` of lines 32-81 followed by line 83, run for at most `fuel`
iterations: the returned error and the final state, or `none` when the loop is still running
after `fuel` iterations. -/
def scanLoop (svc : Services) : Nat → State → Option (Option Error × State)
  | 0, _ => none
  | fuel + 1, st =>
    match loopBody svc st with
    | .ret err st1 => some (err, st1)
    | .next st1 => scanLoop svc fuel st1
    | .exit st1 => some (none, st1)

/-- The function `TrackProgress` (lines 15-84). -/
def TrackProgress (svc : Services) (fuel : Nat) : Option (Option Error × State) :=
  let st : State := { round := 0, writers := [], deleted := [] }
  match svc.speechNewClient with
  | some err => some (some err, st)
  | none =>
    match svc.storageNewClient with
    | some err => some (some err, st)
    | none => scanLoop svc fuel st

/-- The transcript in the words of the specification: every alternative of every result
segment, in the order of the response, each followed by a newline. -/
def specTranscript (resp : LongRunningRecognizeResponse) : String :=
  ((resp.Results.map (fun res => res.Alternatives)).flatten.map
    (fun alt => alt.Transcript ++ "\n")).foldr (fun line rest => line ++ rest) ""

/-- Services that list the given markers and then end the listing, and in which every read
succeeds, every poll reports the given response and every write succeeds. -/
def smoothServices (markers : List String) (resp : Option LongRunningRecognizeResponse) :
    Services where
  speechNewClient := none
  storageNewClient := none
  iterNext := fun k =>
    match markers.get? k with
    | some name => .ok name
    | none => .error Error.iteratorDone
  newReader := fun _ _ => none
  readAll := fun _ name => .ok ("operations/" ++ name)
  poll := fun _ _ => .ok resp
  fprintln := fun _ _ _ => none

/-- A response with two result segments, of two and one alternatives. -/
def sampleResponse : LongRunningRecognizeResponse :=
  { Results := [ { Alternatives := [ { Transcript := "hello world" }, { Transcript := "hallo world" } ] },
                 { Alternatives := [ { Transcript := "good bye" } ] } ] }

end Trackprogress

namespace Frontend

/-! ## Concrete inputs -/

/-- A context. -/
def ctx0 : Context := { token := 0 }

/-- The single upload `abc/song.mp3` at t=0. -/
def scenario1 : List object := [mkObject "abc" "song.mp3" 0]

/-- The upload and its converted audio `abc/song.mp3_output.flac` at t=1. -/
def scenario2 : List object := scenario1 ++ [mkObject "abc" "song.mp3_output.flac" 1]

/-- The upload, the converted audio and the marker `abc/progress-song.mp3_output.flac` at
t=2, named as `<id>/progress-<convertedBasename>`. -/
def scenario3 : List object :=
  scenario2 ++ [mkObject "abc" ("progress-" ++ "song.mp3_output.flac") 2]

/-- A group with a marker whose base name ends in `.progress`, listed out of time order. -/
def suffixMarked : List object :=
  [mkObject "abc" "song.mp3_output.flac.progress" 2, mkObject "abc" "song.mp3_output.flac" 1,
   mkObject "abc" "song.mp3" 0]

/-- A finished group: upload, converted audio and transcript. -/
def finished : List object :=
  [mkObject "abc" "song.mp3" 0, mkObject "abc" "song.mp3_output.flac" 1,
   mkObject "abc" "song.mp3_output.txt" 3]

/-- A marker that arrives after the transcript. -/
def lateMarker : object := mkObject "abc" "song.mp3_output.flac.progress" 4

/-- Two uploads under different identifiers, created at t=5 and t=2. -/
def twoUploads : List object := [mkObject "late" "b.mp3" 5, mkObject "early" "a.mp3" 2]

/-- Two uploads under different identifiers, created at the same instant. -/
def tiedUploads : List object := [mkObject "a" "a.mp3" 0, mkObject "b" "b.mp3" 0]

/-- Two groups whose objects arrive interleaved. -/
def interleaved : List object :=
  [mkObject "x" "one.mp3_output.flac" 3, mkObject "y" "two.mp3" 1, mkObject "x" "one.mp3" 0]

/-- A single upload whose base name ends in `.txt`. -/
def textUpload : List object := [mkObject "abc" "notes.txt" 0]

/-- The state of the grouping loop after the objects `done`: the keys are distinct, they are
the identifiers seen, and every entry holds the objects of its identifier in scan order. -/
structure Grouped (done : List object) (m : List (String × List object)) : Prop where
  nodup : (m.map Prod.fst).Nodup
  keys : ∀ k, k ∈ m.map Prod.fst ↔ k ∈ done.map object.ID
  sets : ∀ e ∈ m, e.2 = done.filter (fun o => decide (o.ID = e.1))

/-! ## The insertion-sort runtime keeps the promises of the Go runtime -/

theorem sink_perm {α : Type} (less : α → α → Bool) (x : α) (l : List α) :
    (sink less x l).Perm (x :: l) := by
  induction l with
  | nil => simp [sink]
  | cons y ys ih =>
    unfold sink
    split
    · exact (List.Perm.cons y ih).trans (List.Perm.swap x y ys)
    · exact List.Perm.refl _

theorem foldl_sink_perm {α : Type} (less : α → α → Bool) (l acc : List α) :
    (l.foldl (fun acc x => sink less x acc) acc).Perm (l.reverse ++ acc) := by
  induction l generalizing acc with
  | nil => simp
  | cons x xs ih =>
    simp only [List.foldl_cons, List.reverse_cons, List.append_assoc, List.singleton_append]
    exact (ih (sink less x acc)).trans (List.Perm.append_left _ (sink_perm less x acc))

theorem insertionSort_perm {α : Type} (less : α → α → Bool) (l : List α) :
    (insertionSort less l).Perm l := by
  unfold insertionSort
  refine (List.reverse_perm _).trans ?_
  have h := foldl_sink_perm less l []
  simp only [List.append_nil] at h
  exact h.trans (List.reverse_perm l)

theorem sink_sorted {α : Type} (key : α → Int) (x : α) (l : List α)
    (h : l.Pairwise (fun a b => key b ≤ key a)) :
    (sink (fun a b => decide (key a < key b)) x l).Pairwise (fun a b => key b ≤ key a) := by
  induction l with
  | nil => simp [sink]
  | cons y ys ih =>
    have hy := (List.pairwise_cons.mp h).1
    have hys := (List.pairwise_cons.mp h).2
    unfold sink
    split
    · rename_i hlt
      have hlt1 : key x < key y := by simpa using hlt
      refine List.pairwise_cons.mpr ⟨?_, ih hys⟩
      intro b hb
      rcases List.mem_cons.mp ((sink_perm _ x ys).mem_iff.mp hb) with hb2 | hb2
      · subst hb2; omega
      · exact hy b hb2
    · rename_i hlt
      have hge : key y ≤ key x := by simpa using hlt
      refine List.pairwise_cons.mpr ⟨?_, h⟩
      intro b hb
      rcases List.mem_cons.mp hb with hb1 | hb1
      · subst hb1; exact hge
      · exact le_trans (hy b hb1) hge

theorem insertionSort_sorted {α : Type} (key : α → Int) (l : List α) :
    (insertionSort (fun a b => decide (key a < key b)) l).Pairwise
      (fun a b => key a ≤ key b) := by
  have h : ∀ (l acc : List α), acc.Pairwise (fun a b => key b ≤ key a) →
      (l.foldl (fun acc x => sink (fun a b => decide (key a < key b)) x acc) acc).Pairwise
        (fun a b => key b ≤ key a) := by
    intro l
    induction l with
    | nil => intro acc hacc; simpa using hacc
    | cons x xs ih => intro acc hacc; exact ih _ (sink_sorted key x acc hacc)
  unfold insertionSort
  exact List.pairwise_reverse.mpr (h l [] List.Pairwise.nil)

theorem stdRuntime_valid : stdRuntime.Valid where
  sortSlice_perm := fun less l => insertionSort_perm less l
  sortSlice_sorted := fun key l => insertionSort_sorted key l
  mapRange_perm := fun m => List.Perm.refl m

theorem revRuntime_valid : revRuntime.Valid where
  sortSlice_perm := fun less l => insertionSort_perm less l
  sortSlice_sorted := fun key l => insertionSort_sorted key l
  mapRange_perm := fun m => List.reverse_perm m

/-! ## The grouping loop -/

theorem mapSet_keys (m : List (String × List object)) (k : String) (v : List object) :
    (mapSet m k v).map Prod.fst =
      if k ∈ m.map Prod.fst then m.map Prod.fst else m.map Prod.fst ++ [k] := by
  induction m with
  | nil => simp [mapSet]
  | cons e rest ih =>
    unfold mapSet
    by_cases h : e.1 = k
    · simp [h]
    · have h1 : ¬ k = e.1 := fun hk => h hk.symm
      simp only [h, if_false, List.map_cons, List.mem_cons, h1, false_or, ih]
      split <;> simp

theorem mem_mapSet (m : List (String × List object)) (k : String) (v : List object)
    (hnd : (m.map Prod.fst).Nodup) (e : String × List object) (he : e ∈ mapSet m k v) :
    e = (k, v) ∨ (e ∈ m ∧ e.1 ≠ k) := by
  induction m with
  | nil => simp [mapSet] at he; exact Or.inl he
  | cons e0 rest ih =>
    have hnd1 : e0.1 ∉ rest.map Prod.fst ∧ (rest.map Prod.fst).Nodup :=
      List.nodup_cons.mp hnd
    unfold mapSet at he
    by_cases h : e0.1 = k
    · simp only [h, if_true, List.mem_cons] at he
      rcases he with he | he
      · exact Or.inl he
      · refine Or.inr ⟨List.mem_cons_of_mem _ he, ?_⟩
        intro hk
        exact hnd1.1 (List.mem_map.mpr ⟨e, he, hk.trans h.symm⟩)
    · simp only [h, if_false, List.mem_cons] at he
      rcases he with he | he
      · subst he; exact Or.inr ⟨List.mem_cons_self _ _, h⟩
      · rcases ih hnd1.2 he with h2 | h2
        · exact Or.inl h2
        · exact Or.inr ⟨List.mem_cons_of_mem _ h2.1, h2.2⟩

theorem mapGet_of_mem (m : List (String × List object)) (hnd : (m.map Prod.fst).Nodup)
    (e : String × List object) (he : e ∈ m) : mapGet m e.1 = e.2 := by
  induction m with
  | nil => simp at he
  | cons e0 rest ih =>
    have hnd1 : e0.1 ∉ rest.map Prod.fst ∧ (rest.map Prod.fst).Nodup :=
      List.nodup_cons.mp hnd
    unfold mapGet
    by_cases h : e0.1 = e.1
    · simp only [List.find?_cons, h, beq_self_eq_true]
      rcases List.mem_cons.mp he with he1 | he1
      · rw [he1]
      · exact absurd (List.mem_map.mpr ⟨e, he1, h.symm⟩) hnd1.1
    · have hb : (e0.1 == e.1) = false := by simpa using h
      simp only [List.find?_cons, hb]
      rcases List.mem_cons.mp he with he1 | he1
      · exact absurd (by rw [he1]) h
      · exact ih hnd1.2 he1

theorem mapGet_of_not_mem (m : List (String × List object)) (k : String)
    (hk : k ∉ m.map Prod.fst) : mapGet m k = [] := by
  unfold mapGet
  have : m.find? (fun e => e.1 == k) = none := by
    rw [List.find?_eq_none]
    intro e he hek
    exact hk (List.mem_map.mpr ⟨e, he, by simpa using hek⟩)
  rw [this]

theorem Grouped.mapGet_eq {done : List object} {m : List (String × List object)}
    (h : Grouped done m) (k : String) :
    mapGet m k = done.filter (fun o => decide (o.ID = k)) := by
  by_cases hk : k ∈ m.map Prod.fst
  · obtain ⟨e, he, hek⟩ := List.mem_map.mp hk
    have h1 := mapGet_of_mem m h.nodup e he
    rw [hek] at h1
    rw [h1, h.sets e he, hek]
  · rw [mapGet_of_not_mem m k hk]
    symm
    rw [List.filter_eq_nil_iff]
    intro o ho hok
    exact hk ((h.keys k).mpr (List.mem_map.mpr ⟨o, ho, by simpa using hok⟩))

theorem Grouped.step {done : List object} {m : List (String × List object)}
    (h : Grouped done m) (o : object) :
    Grouped (done ++ [o]) (mapSet m o.ID (mapGet m o.ID ++ [o])) where
  nodup := by
    rw [mapSet_keys]
    split
    · exact h.nodup
    · rename_i hk
      exact List.Nodup.append h.nodup (List.nodup_singleton _) (by simpa using hk)
  keys := by
    intro k
    rw [mapSet_keys]
    split
    · rename_i hk
      simp only [List.map_append, List.mem_append, List.map_cons, List.map_nil,
        List.mem_singleton, h.keys k]
      constructor
      · exact Or.inl
      · rintro (h1 | h1)
        · exact h1
        · rw [h1]; exact (h.keys _).mp hk
    · simp only [List.map_append, List.mem_append, List.map_cons, List.map_nil,
        List.mem_singleton, h.keys k]
  sets := by
    intro e he
    rcases mem_mapSet m o.ID _ h.nodup e he with he1 | ⟨he1, he2⟩
    · rw [he1]
      simp [h.mapGet_eq o.ID, List.filter_append]
    · have hne : ¬ o.ID = e.1 := fun hh => he2 hh.symm
      simp [h.sets e he1, List.filter_append, hne]

theorem foldl_grouped (objects done : List object) (m : List (String × List object))
    (h : Grouped done m) :
    Grouped (done ++ objects)
      (objects.foldl (fun m obj => mapSet m obj.ID (mapGet m obj.ID ++ [obj])) m) := by
  induction objects generalizing done m with
  | nil => simpa using h
  | cons o rest ih =>
    have h1 := ih (done ++ [o]) _ (h.step o)
    simpa using h1

theorem objectsById_grouped (objects : List object) : Grouped objects (objectsById objects) := by
  have h0 : Grouped [] [] :=
    { nodup := List.nodup_nil, keys := by simp, sets := by simp }
  simpa [objectsById] using foldl_grouped objects [] [] h0

theorem Grouped.set_ne_nil {done : List object} {m : List (String × List object)}
    (h : Grouped done m) (e : String × List object) (he : e ∈ m) : e.2 ≠ [] := by
  have hk : e.1 ∈ done.map object.ID := (h.keys e.1).mp (List.mem_map.mpr ⟨e, he, rfl⟩)
  obtain ⟨o, ho, hoe⟩ := List.mem_map.mp hk
  rw [h.sets e he]
  intro hnil
  rw [List.filter_eq_nil_iff] at hnil
  exact hnil o ho (by simpa using hoe)

/-! ## The loop over the map -/

theorem resolveJob_isSome (ctx : Context) (id : String) (set : List object) (h : set ≠ []) :
    ∃ j, resolveJob ctx id set = some j := by
  cases set with
  | nil => exact absurd rfl h
  | cons first rest =>
    unfold resolveJob
    simp only
    split
    · exact ⟨_, rfl⟩
    · split
      · exact ⟨_, rfl⟩
      · split
        · exact ⟨_, rfl⟩
        · exact ⟨_, rfl⟩

theorem rangeJobs_eq (ctx : Context) (l : List (String × List object))
    (h : ∀ e ∈ l, e.2 ≠ []) :
    rangeJobs ctx l = some (l.filterMap (fun e => resolveJob ctx e.1 e.2)) := by
  induction l with
  | nil => simp [rangeJobs]
  | cons e rest ih =>
    obtain ⟨j, hj⟩ := resolveJob_isSome ctx e.1 e.2 (h e (List.mem_cons_self _ _))
    have ih1 := ih (fun e1 he1 => h e1 (List.mem_cons_of_mem _ he1))
    simp [rangeJobs, hj, ih1, List.filterMap_cons]

theorem resolveJob_fields (ctx : Context) (id : String) (set : List object) (j : job)
    (h : resolveJob ctx id set = some j) :
    j.ID = id ∧ j.ctx = ctx ∧ ∃ first rest, set = first :: rest ∧
      j.Uploaded = first.obj.Created ∧ j.Name = first.Name ∧ j.Original = some first.obj := by
  cases set with
  | nil => simp [resolveJob] at h
  | cons first rest =>
    unfold resolveJob at h
    simp only at h
    split at h
    · cases h; exact ⟨rfl, rfl, first, rest, rfl, rfl, rfl, rfl⟩
    · split at h
      · cases h; exact ⟨rfl, rfl, first, rest, rfl, rfl, rfl, rfl⟩
      · split at h
        · cases h; exact ⟨rfl, rfl, first, rest, rfl, rfl, rfl, rfl⟩
        · cases h; exact ⟨rfl, rfl, first, rest, rfl, rfl, rfl, rfl⟩

theorem find?_ne_none_of_mem (p : object → Bool) (set : List object) (o : object)
    (ho : o ∈ set) (hp : p o = true) : set.find? p ≠ none := by
  intro hnone
  rw [List.find?_eq_none] at hnone
  exact hnone o ho hp

theorem find?_eq_none_of_forall (p : object → Bool) (set : List object)
    (h : ∀ o ∈ set, p o = false) : set.find? p = none := by
  rw [List.find?_eq_none]
  intro o ho hp
  rw [h o ho] at hp
  exact Bool.false_ne_true hp

theorem resolveJob_done (ctx : Context) (id : String) (set : List object) (j : job)
    (h : resolveJob ctx id set = some j)
    (htxt : ∃ o ∈ set, HasSuffix o.Name ".txt" = true) :
    j.Status = "done" ∧ ∃ o ∈ set, HasSuffix o.Name ".txt" = true ∧ j.Transcript = some o.obj := by
  obtain ⟨o, ho, hsuf⟩ := htxt
  have hfind := find?_ne_none_of_mem (fun obj => HasSuffix obj.Name ".txt") set o ho hsuf
  cases set with
  | nil => simp [resolveJob] at h
  | cons first rest =>
    unfold resolveJob at h
    simp only at h
    split at h
    · rename_i t ht
      cases h
      exact ⟨by simp [job.Status], t, List.mem_of_find?_eq_some ht,
        by simpa using List.find?_some ht, rfl⟩
    · rename_i hn
      exact absurd hn hfind

theorem resolveJob_transcribing (ctx : Context) (id : String) (set : List object) (j : job)
    (h : resolveJob ctx id set = some j)
    (htxt : ∀ o ∈ set, HasSuffix o.Name ".txt" = false)
    (hprog : ∃ o ∈ set, HasSuffix o.Name ".progress" = true) :
    j.Status = "transcribing" ∧
      ∃ o ∈ set, HasSuffix o.Name ".progress" = true ∧ j.Progress = some o.obj := by
  obtain ⟨o, ho, hsuf⟩ := hprog
  have hfind := find?_ne_none_of_mem (fun obj => HasSuffix obj.Name ".progress") set o ho hsuf
  have hnone := find?_eq_none_of_forall (fun obj => HasSuffix obj.Name ".txt") set htxt
  cases set with
  | nil => simp [resolveJob] at h
  | cons first rest =>
    unfold resolveJob at h
    simp only [hnone] at h
    split at h
    · rename_i t ht
      cases h
      exact ⟨by simp [job.Status], t, List.mem_of_find?_eq_some ht,
        by simpa using List.find?_some ht, rfl⟩
    · rename_i hn
      exact absurd hn hfind

theorem resolveJob_queued (ctx : Context) (id : String) (first : object) (rest : List object)
    (htxt : ∀ o ∈ first :: rest, HasSuffix o.Name ".txt" = false)
    (hprog : ∀ o ∈ first :: rest, HasSuffix o.Name ".progress" = false)
    (hflac : ∀ o ∈ first :: rest, HasSuffix o.Name ".flac" = false) :
    resolveJob ctx id (first :: rest) =
      some { ctx := ctx, ID := id, Uploaded := first.obj.Created, Name := first.Name,
             Original := some first.obj, Flac := none, Progress := none, Transcript := none } := by
  have hnone := find?_eq_none_of_forall (fun obj => HasSuffix obj.Name ".txt") _ htxt
  have hnone2 := find?_eq_none_of_forall (fun obj => HasSuffix obj.Name ".progress") _ hprog
  have hnone3 := find?_eq_none_of_forall (fun obj => HasSuffix obj.Name ".flac") _ hflac
  unfold resolveJob
  simp only [hnone, hnone2, hnone3]

theorem filterMap_resolveJob_ids (ctx : Context) (l : List (String × List object))
    (h : ∀ e ∈ l, e.2 ≠ []) :
    (l.filterMap (fun e => resolveJob ctx e.1 e.2)).map job.ID = l.map Prod.fst := by
  induction l with
  | nil => simp
  | cons e rest ih =>
    obtain ⟨j, hj⟩ := resolveJob_isSome ctx e.1 e.2 (h e (List.mem_cons_self _ _))
    have hid := (resolveJob_fields ctx e.1 e.2 j hj).1
    have ih1 := ih (fun e1 he1 => h e1 (List.mem_cons_of_mem _ he1))
    simp [List.filterMap_cons, hj, ih1, hid]

/-! ## `resolveProgress` as a whole -/

theorem resolveProgress_eq (rt : Runtime) (hrt : rt.Valid) (ctx : Context)
    (objects : List object) :
    resolveProgress rt ctx objects = some (rt.sortSlice lessUploaded
      ((rt.mapRange (objectsById (rt.sortSlice lessCreated objects))).filterMap
        (fun e => resolveJob ctx e.1 e.2))) := by
  have G := objectsById_grouped (rt.sortSlice lessCreated objects)
  have hne : ∀ e ∈ rt.mapRange (objectsById (rt.sortSlice lessCreated objects)), e.2 ≠ [] :=
    fun e he => G.set_ne_nil e ((hrt.mapRange_perm _).mem_iff.mp he)
  unfold resolveProgress
  simp only [rangeJobs_eq ctx _ hne]

theorem resolveProgress_spec (rt : Runtime) (hrt : rt.Valid) (ctx : Context)
    (objects : List object) :
    ∃ jobs, resolveProgress rt ctx objects = some jobs ∧
      (jobs.map job.ID).Nodup ∧
      (∀ X, X ∈ jobs.map job.ID ↔ X ∈ objects.map object.ID) ∧
      (∀ j ∈ jobs, resolveJob ctx j.ID
        ((rt.sortSlice lessCreated objects).filter (fun o => decide (o.ID = j.ID))) = some j) ∧
      jobs.Pairwise (fun a b => a.Uploaded ≤ b.Uploaded) := by
  have hperm : (rt.sortSlice lessCreated objects).Perm objects := hrt.sortSlice_perm _ _
  have G := objectsById_grouped (rt.sortSlice lessCreated objects)
  have hr := hrt.mapRange_perm (objectsById (rt.sortSlice lessCreated objects))
  have hne : ∀ e ∈ rt.mapRange (objectsById (rt.sortSlice lessCreated objects)), e.2 ≠ [] :=
    fun e he => G.set_ne_nil e (hr.mem_iff.mp he)
  have hj := hrt.sortSlice_perm lessUploaded
    ((rt.mapRange (objectsById (rt.sortSlice lessCreated objects))).filterMap
      (fun e => resolveJob ctx e.1 e.2))
  have hids : ((rt.sortSlice lessUploaded
      ((rt.mapRange (objectsById (rt.sortSlice lessCreated objects))).filterMap
        (fun e => resolveJob ctx e.1 e.2))).map job.ID).Perm
      ((objectsById (rt.sortSlice lessCreated objects)).map Prod.fst) := by
    refine (hj.map job.ID).trans ?_
    rw [filterMap_resolveJob_ids ctx _ hne]
    exact hr.map Prod.fst
  refine ⟨_, resolveProgress_eq rt hrt ctx objects, ?_, ?_, ?_, ?_⟩
  · exact hids.nodup_iff.mpr G.nodup
  · intro X
    rw [hids.mem_iff, G.keys X]
    exact (hperm.map object.ID).mem_iff
  · intro j hjm
    have h1 := hj.mem_iff.mp hjm
    obtain ⟨e, he, hej⟩ := List.mem_filterMap.mp h1
    have hid := (resolveJob_fields ctx e.1 e.2 j hej).1
    have hset := G.sets e (hr.mem_iff.mp he)
    rw [hid, ← hset]
    exact hej
  · exact hrt.sortSlice_sorted (fun j : job => j.Uploaded) _

theorem group_head_min (sorted : List object)
    (hs : sorted.Pairwise (fun a b => a.obj.Created ≤ b.obj.Created)) (X : String)
    (first : object) (rest : List object)
    (h : sorted.filter (fun o => decide (o.ID = X)) = first :: rest) :
    first ∈ sorted ∧ first.ID = X ∧
      ∀ o ∈ sorted, o.ID = X → first.obj.Created ≤ o.obj.Created := by
  have hmem : first ∈ sorted.filter (fun o => decide (o.ID = X)) := by
    rw [h]; exact List.mem_cons_self _ _
  have hfirst := List.mem_filter.mp hmem
  have hpw : (first :: rest).Pairwise (fun a b => a.obj.Created ≤ b.obj.Created) := by
    rw [← h]; exact hs.sublist (List.filter_sublist _)
  refine ⟨hfirst.1, by simpa using hfirst.2, ?_⟩
  intro o ho hoX
  have ho1 : o ∈ first :: rest := by
    rw [← h]; exact List.mem_filter.mpr ⟨ho, by simpa using hoX⟩
  rcases List.mem_cons.mp ho1 with h1 | h1
  · rw [h1]
  · exact (List.pairwise_cons.mp hpw).1 o h1

/-- Every output job carries the creation time of an object of its group, and no object of
the group is older. -/
theorem uploaded_is_earliest (rt : Runtime) (hrt : rt.Valid) (ctx : Context)
    (objects : List object) (j : job)
    (hj : resolveJob ctx j.ID
      ((rt.sortSlice lessCreated objects).filter (fun o => decide (o.ID = j.ID))) = some j) :
    (∃ o ∈ objects, o.ID = j.ID ∧ o.obj.Created = j.Uploaded) ∧
      (∀ o ∈ objects, o.ID = j.ID → j.Uploaded ≤ o.obj.Created) := by
  have hperm : (rt.sortSlice lessCreated objects).Perm objects := hrt.sortSlice_perm _ _
  have hsorted : (rt.sortSlice lessCreated objects).Pairwise
      (fun a b => a.obj.Created ≤ b.obj.Created) :=
    hrt.sortSlice_sorted (fun o : object => o.obj.Created) objects
  obtain ⟨_, _, first, rest, hset, hup, _, _⟩ := resolveJob_fields ctx _ _ j hj
  obtain ⟨h1, h2, h3⟩ := group_head_min _ hsorted j.ID first rest hset
  refine ⟨⟨first, hperm.mem_iff.mp h1, h2, hup.symm⟩, ?_⟩
  intro o ho hoX
  rw [hup]
  exact h3 o (hperm.mem_iff.mpr ho) hoX

/-- The objects of a group after sorting are the objects of the group. -/
theorem mem_sorted_group (rt : Runtime) (hrt : rt.Valid) (objects : List object) (X : String)
    (o : object) :
    o ∈ (rt.sortSlice lessCreated objects).filter (fun o => decide (o.ID = X)) ↔
      o ∈ objects ∧ o.ID = X := by
  rw [List.mem_filter, (hrt.sortSlice_perm lessCreated objects).mem_iff]
  simp

/-! ## The claims about `resolveProgress` -/

/-- C1 (grouping correctness). For every input list and every order in which it is presented,
`resolveProgress` returns, and its output holds exactly one job for every identifier that
occurs among the input objects and no job for any other identifier, whatever the order in
which the map is iterated and however the sorts break ties. -/
theorem resolveProgress_grouping (rt : Runtime) (hrt : rt.Valid) (ctx : Context)
    (objects permuted : List object) (hperm : permuted.Perm objects) :
    ∃ jobs, resolveProgress rt ctx permuted = some jobs ∧
      (∀ X, X ∈ objects.map object.ID → (jobs.map job.ID).count X = 1) ∧
      (∀ j ∈ jobs, j.ID ∈ objects.map object.ID) := by
  obtain ⟨jobs, hjobs, hnd, hids, _, _⟩ := resolveProgress_spec rt hrt ctx permuted
  have hX : ∀ X, X ∈ jobs.map job.ID ↔ X ∈ objects.map object.ID := fun X =>
    (hids X).trans (hperm.map object.ID).mem_iff
  refine ⟨jobs, hjobs, ?_, ?_⟩
  · intro X hin
    exact List.count_eq_one_of_mem hnd ((hX X).mpr hin)
  · intro j hj
    exact (hX j.ID).mp (List.mem_map.mpr ⟨j, hj, rfl⟩)

theorem resolveProgress_grouping_witness :
    stdRuntime.Valid ∧ (interleaved.reverse).Perm interleaved ∧
    ∃ jobs, resolveProgress stdRuntime ctx0 interleaved.reverse = some jobs ∧
      (∀ X, X ∈ interleaved.map object.ID → (jobs.map job.ID).count X = 1) ∧
      (∀ j ∈ jobs, j.ID ∈ interleaved.map object.ID) :=
  ⟨stdRuntime_valid, List.reverse_perm _,
    resolveProgress_grouping stdRuntime stdRuntime_valid ctx0 interleaved interleaved.reverse
      (List.reverse_perm _)⟩

/-- C2 (monotonic ordering). For every input list `resolveProgress` returns; the `Uploaded`
of each output job is the creation time of an input object with the job's ID and no input
object with that ID is older, and the output is in ascending order of `Uploaded`. -/
theorem resolveProgress_ordering (rt : Runtime) (hrt : rt.Valid) (ctx : Context)
    (objects : List object) :
    ∃ jobs, resolveProgress rt ctx objects = some jobs ∧
      (∀ j ∈ jobs, (∃ o ∈ objects, o.ID = j.ID ∧ o.obj.Created = j.Uploaded) ∧
        (∀ o ∈ objects, o.ID = j.ID → j.Uploaded ≤ o.obj.Created)) ∧
      jobs.Pairwise (fun a b => a.Uploaded ≤ b.Uploaded) := by
  obtain ⟨jobs, hjobs, _, _, hres, hsorted⟩ := resolveProgress_spec rt hrt ctx objects
  exact ⟨jobs, hjobs, fun j hj => uploaded_is_earliest rt hrt ctx objects j (hres j hj), hsorted⟩

theorem resolveProgress_ordering_witness :
    stdRuntime.Valid ∧
    (resolveProgress stdRuntime ctx0 twoUploads).map (fun jobs => jobs.map job.Uploaded) =
      some [2, 5] ∧
    (resolveProgress stdRuntime ctx0 twoUploads).map (fun jobs => jobs.map job.ID) =
      some ["early", "late"] ∧
    ∃ jobs, resolveProgress stdRuntime ctx0 twoUploads = some jobs ∧
      (∀ j ∈ jobs, (∃ o ∈ twoUploads, o.ID = j.ID ∧ o.obj.Created = j.Uploaded) ∧
        (∀ o ∈ twoUploads, o.ID = j.ID → j.Uploaded ≤ o.obj.Created)) ∧
      jobs.Pairwise (fun a b => a.Uploaded ≤ b.Uploaded) :=
  ⟨stdRuntime_valid, by decide, by decide,
    resolveProgress_ordering stdRuntime stdRuntime_valid ctx0 twoUploads⟩

/-- C3 (phase priority). For every input and every identifier `X` whose group holds an object
with base name ending in `.progress` and one ending in `.flac` but none ending in `.txt`,
`resolveProgress` returns exactly one job for `X`, and its `Status()` is `transcribing` (so it
is not `converting`). -/
theorem resolveProgress_phase_priority (rt : Runtime) (hrt : rt.Valid) (ctx : Context)
    (objects : List object) (X : String)
    (hprog : ∃ o ∈ objects, o.ID = X ∧ HasSuffix o.Name ".progress" = true)
    (hflac : ∃ o ∈ objects, o.ID = X ∧ HasSuffix o.Name ".flac" = true)
    (htxt : ∀ o ∈ objects, o.ID = X → HasSuffix o.Name ".txt" = false) :
    ∃ jobs, resolveProgress rt ctx objects = some jobs ∧
      (jobs.map job.ID).count X = 1 ∧
      ∀ j ∈ jobs, j.ID = X → j.Status = "transcribing" ∧ j.Status ≠ "converting" := by
  obtain ⟨jobs, hjobs, hnd, hids, hres, _⟩ := resolveProgress_spec rt hrt ctx objects
  obtain ⟨p, hp, hpX, hpsuf⟩ := hprog
  have _ := hflac
  refine ⟨jobs, hjobs, ?_, ?_⟩
  · exact List.count_eq_one_of_mem hnd ((hids X).mpr (List.mem_map.mpr ⟨p, hp, hpX⟩))
  · intro j hj hjX
    have h1 := hres j hj
    rw [hjX] at h1
    have hst := (resolveJob_transcribing ctx X _ j h1
      (fun o ho => by
        have := (mem_sorted_group rt hrt objects X o).mp ho
        exact htxt o this.1 this.2)
      ⟨p, (mem_sorted_group rt hrt objects X p).mpr ⟨hp, hpX⟩, hpsuf⟩).1
    exact ⟨hst, by rw [hst]; decide⟩

theorem resolveProgress_phase_priority_witness :
    stdRuntime.Valid ∧
    (∃ o ∈ suffixMarked, o.ID = "abc" ∧ HasSuffix o.Name ".progress" = true) ∧
    (∃ o ∈ suffixMarked, o.ID = "abc" ∧ HasSuffix o.Name ".flac" = true) ∧
    (∀ o ∈ suffixMarked, o.ID = "abc" → HasSuffix o.Name ".txt" = false) ∧
    ∃ jobs, resolveProgress stdRuntime ctx0 suffixMarked = some jobs ∧
      (jobs.map job.ID).count "abc" = 1 ∧
      ∀ j ∈ jobs, j.ID = "abc" → j.Status = "transcribing" ∧ j.Status ≠ "converting" :=
  ⟨stdRuntime_valid, by decide, by decide, by decide,
    resolveProgress_phase_priority stdRuntime stdRuntime_valid ctx0 suffixMarked "abc"
      (by decide) (by decide) (by decide)⟩

/-- C4 (terminal stability). If the group of `X` holds an object with base name ending in
`.txt`, then the job of `X` has `Status()` `done`, and after one more object with ID `X` (of
any name and creation time) is added anywhere in the input, `resolveProgress` still returns
exactly one job for `X` and its `Status()` is still `done`. -/
theorem resolveProgress_terminal_stability (rt : Runtime) (hrt : rt.Valid) (ctx : Context)
    (objects : List object) (X : String) (extra : object) (extended : List object)
    (htxt : ∃ o ∈ objects, o.ID = X ∧ HasSuffix o.Name ".txt" = true)
    (hextra : extra.ID = X) (hperm : extended.Perm (extra :: objects)) :
    (∃ jobs, resolveProgress rt ctx objects = some jobs ∧
      (jobs.map job.ID).count X = 1 ∧ ∀ j ∈ jobs, j.ID = X → j.Status = "done") ∧
    (∃ jobs, resolveProgress rt ctx extended = some jobs ∧
      (jobs.map job.ID).count X = 1 ∧ ∀ j ∈ jobs, j.ID = X → j.Status = "done") := by
  have key : ∀ input : List object,
      (∃ o ∈ input, o.ID = X ∧ HasSuffix o.Name ".txt" = true) →
      ∃ jobs, resolveProgress rt ctx input = some jobs ∧
        (jobs.map job.ID).count X = 1 ∧ ∀ j ∈ jobs, j.ID = X → j.Status = "done" := by
    intro input hin
    obtain ⟨jobs, hjobs, hnd, hids, hres, _⟩ := resolveProgress_spec rt hrt ctx input
    obtain ⟨t, ht, htX, htsuf⟩ := hin
    refine ⟨jobs, hjobs, ?_, ?_⟩
    · exact List.count_eq_one_of_mem hnd ((hids X).mpr (List.mem_map.mpr ⟨t, ht, htX⟩))
    · intro j hj hjX
      have h1 := hres j hj
      rw [hjX] at h1
      exact (resolveJob_done ctx X _ j h1
        ⟨t, (mem_sorted_group rt hrt input X t).mpr ⟨ht, htX⟩, htsuf⟩).1
  obtain ⟨t, ht, htX, htsuf⟩ := htxt
  have _ := hextra
  exact ⟨key objects ⟨t, ht, htX, htsuf⟩,
    key extended ⟨t, hperm.mem_iff.mpr (List.mem_cons_of_mem _ ht), htX, htsuf⟩⟩

theorem resolveProgress_terminal_stability_witness :
    stdRuntime.Valid ∧
    (∃ o ∈ finished, o.ID = "abc" ∧ HasSuffix o.Name ".txt" = true) ∧
    lateMarker.ID = "abc" ∧ (finished ++ [lateMarker]).Perm (lateMarker :: finished) ∧
    (∃ jobs, resolveProgress stdRuntime ctx0 finished = some jobs ∧
      (jobs.map job.ID).count "abc" = 1 ∧ ∀ j ∈ jobs, j.ID = "abc" → j.Status = "done") ∧
    (∃ jobs, resolveProgress stdRuntime ctx0 (finished ++ [lateMarker]) = some jobs ∧
      (jobs.map job.ID).count "abc" = 1 ∧ ∀ j ∈ jobs, j.ID = "abc" → j.Status = "done") :=
  ⟨stdRuntime_valid, by decide, by decide, List.perm_append_singleton _ _,
    resolveProgress_terminal_stability stdRuntime stdRuntime_valid ctx0 finished "abc"
      lateMarker (finished ++ [lateMarker]) (by decide) (by decide)
      (List.perm_append_singleton _ _)⟩

theorem uploaded_strictly_sorted (rt : Runtime) (hrt : rt.Valid) (ctx : Context)
    (objects : List object)
    (hdist : ∀ a ∈ objects, ∀ b ∈ objects, a.ID ≠ b.ID →
      (∀ o ∈ objects, o.ID = a.ID → a.obj.Created ≤ o.obj.Created) →
      (∀ o ∈ objects, o.ID = b.ID → b.obj.Created ≤ o.obj.Created) →
      a.obj.Created ≠ b.obj.Created)
    (jobs : List job) (hjobs : resolveProgress rt ctx objects = some jobs) :
    jobs.Pairwise (fun a b => a.Uploaded < b.Uploaded) := by
  obtain ⟨jobs1, hjobs1, hnd, _, hres, hsorted⟩ := resolveProgress_spec rt hrt ctx objects
  have hEq : jobs1 = jobs := Option.some.inj (hjobs1.symm.trans hjobs)
  subst hEq
  have hne : jobs1.Pairwise (fun a b => a.ID ≠ b.ID) := List.pairwise_map.mp hnd
  refine (hsorted.and hne).imp_of_mem ?_
  intro a b ha hb hab
  obtain ⟨⟨oa, hoa, hoaID, hoaT⟩, hamin⟩ := uploaded_is_earliest rt hrt ctx objects a (hres a ha)
  obtain ⟨⟨ob, hob, hobID, hobT⟩, hbmin⟩ := uploaded_is_earliest rt hrt ctx objects b (hres b hb)
  have hneq : oa.obj.Created ≠ ob.obj.Created := by
    apply hdist oa hoa ob hob
    · rw [hoaID, hobID]; exact hab.2
    · intro o ho hoID; rw [hoaT]; exact hamin o ho (hoID.trans hoaID)
    · intro o ho hoID; rw [hobT]; exact hbmin o ho (hoID.trans hobID)
  rw [hoaT, hobT] at hneq
  exact lt_of_le_of_ne hab.1 hneq

/-- C5, counterexample. Two uploads under different identifiers and with the same creation
time: the same sorting algorithm gives the jobs in the order `a, b` when the map is iterated
in one order and in the order `b, a` when it is iterated in the other, so two calls on the
identical input need not give identical output. -/
theorem resolveProgress_depends_on_map_order :
    stdRuntime.Valid ∧ revRuntime.Valid ∧
    (∀ l : List object, stdRuntime.sortSlice lessCreated l = revRuntime.sortSlice lessCreated l) ∧
    (∀ l : List job, stdRuntime.sortSlice lessUploaded l = revRuntime.sortSlice lessUploaded l) ∧
    (resolveProgress stdRuntime ctx0 tiedUploads).map (fun jobs => jobs.map job.ID) =
      some ["a", "b"] ∧
    (resolveProgress revRuntime ctx0 tiedUploads).map (fun jobs => jobs.map job.ID) =
      some ["b", "a"] ∧
    resolveProgress stdRuntime ctx0 tiedUploads ≠ resolveProgress revRuntime ctx0 tiedUploads :=
  ⟨stdRuntime_valid, revRuntime_valid, fun _ => rfl, fun _ => rfl, by decide, by decide,
    by decide⟩

/-- C5, as amended. When no two identifier groups share their earliest creation time (objects
of one group may share creation times), two calls of `resolveProgress` on the identical input
that sort the input alike return the identical list of jobs, whatever the order in which each
call iterates the map and however the final sort breaks ties. -/
theorem resolveProgress_idempotent (rt1 rt2 : Runtime) (h1 : rt1.Valid) (h2 : rt2.Valid)
    (ctx : Context) (objects : List object)
    (hsort : rt1.sortSlice lessCreated objects = rt2.sortSlice lessCreated objects)
    (hdist : ∀ a ∈ objects, ∀ b ∈ objects, a.ID ≠ b.ID →
      (∀ o ∈ objects, o.ID = a.ID → a.obj.Created ≤ o.obj.Created) →
      (∀ o ∈ objects, o.ID = b.ID → b.obj.Created ≤ o.obj.Created) →
      a.obj.Created ≠ b.obj.Created) :
    ∃ jobs, resolveProgress rt1 ctx objects = some jobs ∧
      resolveProgress rt2 ctx objects = some jobs := by
  have e1 := resolveProgress_eq rt1 h1 ctx objects
  have e2 := resolveProgress_eq rt2 h2 ctx objects
  have s1 := uploaded_strictly_sorted rt1 h1 ctx objects hdist _ e1
  have s2 := uploaded_strictly_sorted rt2 h2 ctx objects hdist _ e2
  have hperm : (rt1.sortSlice lessUploaded
      ((rt1.mapRange (objectsById (rt1.sortSlice lessCreated objects))).filterMap
        (fun e => resolveJob ctx e.1 e.2))).Perm
      (rt2.sortSlice lessUploaded
      ((rt2.mapRange (objectsById (rt2.sortSlice lessCreated objects))).filterMap
        (fun e => resolveJob ctx e.1 e.2))) := by
    refine (h1.sortSlice_perm _ _).trans (List.Perm.trans ?_ (h2.sortSlice_perm _ _).symm)
    apply List.Perm.filterMap
    rw [hsort]
    exact (h1.mapRange_perm _).trans (h2.mapRange_perm _).symm
  have heq := List.Perm.eq_of_sorted
    (fun a b _ _ hab hba => absurd hab (not_lt.mpr (le_of_lt hba))) s1 s2 hperm
  exact ⟨_, e1, by rw [e2, heq]⟩

theorem resolveProgress_idempotent_witness :
    stdRuntime.Valid ∧ revRuntime.Valid ∧
    stdRuntime.sortSlice lessCreated interleaved = revRuntime.sortSlice lessCreated interleaved ∧
    (∀ a ∈ interleaved, ∀ b ∈ interleaved, a.ID ≠ b.ID →
      (∀ o ∈ interleaved, o.ID = a.ID → a.obj.Created ≤ o.obj.Created) →
      (∀ o ∈ interleaved, o.ID = b.ID → b.obj.Created ≤ o.obj.Created) →
      a.obj.Created ≠ b.obj.Created) ∧
    ∃ jobs, resolveProgress stdRuntime ctx0 interleaved = some jobs ∧
      resolveProgress revRuntime ctx0 interleaved = some jobs :=
  ⟨stdRuntime_valid, revRuntime_valid, rfl, by decide,
    resolveProgress_idempotent stdRuntime revRuntime stdRuntime_valid revRuntime_valid ctx0
      interleaved rfl (by decide)⟩

/-- C6, counterexample. The single upload `abc/notes.txt` is resolved to one job whose
`Status()` is `done`, not `queued`: the suffix loops also look at the first object of the
group. -/
theorem resolveProgress_single_txt_is_done :
    resolveProgress stdRuntime ctx0 textUpload =
      some [{ ctx := ctx0, Uploaded := 0, ID := "abc", Name := "notes.txt",
              Original := some { Name := "abc/notes.txt", Created := 0 },
              Flac := none, Progress := none,
              Transcript := some { Name := "abc/notes.txt", Created := 0 } }] ∧
    (resolveProgress stdRuntime ctx0 textUpload).map (fun jobs => jobs.map job.Status) =
      some ["done"] ∧
    (resolveProgress stdRuntime ctx0 textUpload).map (fun jobs => jobs.map job.Status) ≠
      some ["queued"] :=
  ⟨by decide, by decide, by decide⟩

/-- C6, as amended. For every input that consists of a single object whose base name ends in
none of `.txt`, `.progress` and `.flac`, the output is exactly one job, with the object's ID,
its base name as `Name`, its creation time as `Uploaded`, the object as `Original`, no other
slot filled, and `Status()` `queued`. -/
theorem resolveProgress_single_queued (rt : Runtime) (hrt : rt.Valid) (ctx : Context)
    (o : object)
    (htxt : HasSuffix o.Name ".txt" = false)
    (hprog : HasSuffix o.Name ".progress" = false)
    (hflac : HasSuffix o.Name ".flac" = false) :
    resolveProgress rt ctx [o] =
      some [{ ctx := ctx, Uploaded := o.obj.Created, ID := o.ID, Name := o.Name,
              Original := some o.obj, Flac := none, Progress := none, Transcript := none }] ∧
    (resolveProgress rt ctx [o]).map (fun jobs => jobs.map job.Status) = some ["queued"] := by
  have hs : rt.sortSlice lessCreated [o] = [o] :=
    List.perm_singleton.mp (hrt.sortSlice_perm lessCreated [o])
  have hm : objectsById [o] = [(o.ID, [o])] := by
    simp [objectsById, mapSet, mapGet]
  have hr : rt.mapRange [(o.ID, [o])] = [(o.ID, [o])] :=
    List.perm_singleton.mp (hrt.mapRange_perm _)
  have hj := resolveJob_queued ctx o.ID o []
    (by intro x hx; rw [List.mem_singleton.mp hx]; exact htxt)
    (by intro x hx; rw [List.mem_singleton.mp hx]; exact hprog)
    (by intro x hx; rw [List.mem_singleton.mp hx]; exact hflac)
  have hres : resolveProgress rt ctx [o] =
      some [{ ctx := ctx, Uploaded := o.obj.Created, ID := o.ID, Name := o.Name,
              Original := some o.obj, Flac := none, Progress := none, Transcript := none }] := by
    rw [resolveProgress_eq rt hrt ctx [o], hs, hm, hr]
    simp only [List.filterMap_cons, hj, List.filterMap_nil]
    rw [List.perm_singleton.mp (hrt.sortSlice_perm lessUploaded _)]
  refine ⟨hres, ?_⟩
  rw [hres]
  simp [job.Status]

theorem resolveProgress_single_queued_witness :
    stdRuntime.Valid ∧
    HasSuffix "song.mp3" ".txt" = false ∧ HasSuffix "song.mp3" ".progress" = false ∧
    HasSuffix "song.mp3" ".flac" = false ∧
    resolveProgress stdRuntime ctx0 [mkObject "abc" "song.mp3" 0] =
      some [{ ctx := ctx0, Uploaded := 0, ID := "abc", Name := "song.mp3",
              Original := some { Name := "abc/song.mp3", Created := 0 },
              Flac := none, Progress := none, Transcript := none }] ∧
    (resolveProgress stdRuntime ctx0 [mkObject "abc" "song.mp3" 0]).map
      (fun jobs => jobs.map job.Status) = some ["queued"] :=
  ⟨stdRuntime_valid, by decide, by decide, by decide,
    resolveProgress_single_queued stdRuntime stdRuntime_valid ctx0 (mkObject "abc" "song.mp3" 0)
      (by decide) (by decide) (by decide)⟩

/-- C7, the code at the failing input. The three blobs `abc/song.mp3` (t=0),
`abc/song.mp3_output.flac` (t=1) and the marker `abc/progress-song.mp3_output.flac` (t=2)
resolve to one job whose `Status()` is `converting`, whose `Progress` slot is empty and whose
`Percent()` is the empty string for every progress service, which is therefore not asked: the
resolver looks for the suffix `.progress`, and neither the marker of the convention nor the
key that `processAudio` writes has it. -/
theorem resolveProgress_marker_not_recognised :
    resolveProgress stdRuntime ctx0 scenario3 =
      some [{ ctx := ctx0, Uploaded := 0, ID := "abc", Name := "song.mp3",
              Original := some { Name := "abc/song.mp3", Created := 0 },
              Flac := some { Name := "abc/song.mp3_output.flac", Created := 1 },
              Progress := none, Transcript := none }] ∧
    (resolveProgress stdRuntime ctx0 scenario3).map (fun jobs => jobs.map job.Status) =
      some ["converting"] ∧
    (∀ getProgress, (resolveProgress stdRuntime ctx0 scenario3).map
      (fun jobs => jobs.map (job.Percent getProgress)) = some [""]) ∧
    HasSuffix "progress-song.mp3_output.flac" ".progress" = false ∧
    Recognize.markerName "abc/song.mp3_output.flac" = "progress-abc/song.mp3_output.flac" ∧
    HasSuffix (Recognize.markerName "abc/song.mp3_output.flac") ".progress" = false := by
  have h : resolveProgress stdRuntime ctx0 scenario3 =
      some [{ ctx := ctx0, Uploaded := 0, ID := "abc", Name := "song.mp3",
              Original := some { Name := "abc/song.mp3", Created := 0 },
              Flac := some { Name := "abc/song.mp3_output.flac", Created := 1 },
              Progress := none, Transcript := none }] := by decide
  refine ⟨h, by decide, ?_, by decide, by decide, by decide⟩
  intro getProgress
  rw [h]
  rfl

/-- C9, the code at the failing input. When the listing fails, `getStatus` returns the error,
`statusHandler` answers 500 with the error text, but `indexHandler` answers 200 with the page
rendered for an empty job list: the error is overwritten before it is looked at. -/
theorem indexHandler_drops_listing_error :
    getStatus stdRuntime ctx0 brokenStorage =
      some ([], some (Error.other "storage: listing failed")) ∧
    statusHandler stdRuntime ctx0 brokenStorage plainTemplate =
      some { status := 500, body := "storage: listing failed\n" } ∧
    indexHandler stdRuntime ctx0 brokenStorage plainTemplate =
      some { status := 200, body := "<table></table>" } ∧
    plainTemplate "index.html" [] = .ok "<table></table>" :=
  ⟨by decide, by decide, by decide, rfl⟩

end Frontend

namespace Trackprogress

open Frontend (Error)

/-! ## The transcript written by the scan loop -/

/-- The lines of the alternatives joined, as `specTranscript` joins them. -/
theorem foldr_append_lines (l1 l2 : List String) :
    (l1 ++ l2).foldr (fun line rest => line ++ rest) "" =
      l1.foldr (fun line rest => line ++ rest) "" ++
        l2.foldr (fun line rest => line ++ rest) "" := by
  induction l1 with
  | nil => simp
  | cons x xs ih => simp [ih, String.append_assoc]

theorem writeAlternatives_ok (svc : Services) (k : Nat)
    (alts : List SpeechRecognitionAlternative) (buf out : String)
    (h : writeAlternatives svc k alts buf = (out, none)) :
    out = buf ++ (alts.map (fun alt => alt.Transcript ++ "\n")).foldr
      (fun line rest => line ++ rest) "" := by
  induction alts generalizing buf with
  | nil =>
    simp only [writeAlternatives, Prod.mk.injEq, and_true] at h
    simp [← h]
  | cons alt rest ih =>
    unfold writeAlternatives at h
    split at h
    · simp at h
    · have h1 := ih _ h
      rw [h1]
      simp [String.append_assoc]

theorem writeResults_ok (svc : Services) (k : Nat) (results : List SpeechRecognitionResult)
    (buf out : String) (h : writeResults svc k results buf = (out, none)) :
    out = buf ++ ((results.map (fun res => res.Alternatives)).flatten.map
      (fun alt => alt.Transcript ++ "\n")).foldr (fun line rest => line ++ rest) "" := by
  induction results generalizing buf with
  | nil =>
    simp only [writeResults, Prod.mk.injEq, and_true] at h
    simp [← h]
  | cons res rest ih =>
    unfold writeResults at h
    split at h
    · simp at h
    · rename_i buf1 hw
      have h1 := ih _ h
      have h2 := writeAlternatives_ok svc k res.Alternatives buf buf1 hw
      rw [h1, h2, List.map_cons, List.flatten_cons, List.map_append, foldr_append_lines,
        String.append_assoc]

/-- C8 (transcript content). In an iteration of the scan loop in which the marker is read and
the poll returns a completed response, if the write loop ends without a write error, then the
iteration goes on to the next marker having written to the transcript object (the marker name
without its `progress-` prefix, followed by `.txt`) exactly the transcript of every
alternative of every result segment, in response order, each followed by a newline, and
having deleted the marker. -/
theorem loopBody_writes_transcript (svc : Services) (st : State) (name operationName : String)
    (resp : LongRunningRecognizeResponse)
    (hnext : svc.iterNext st.round = .ok name)
    (hreader : svc.newReader st.round name = none)
    (hread : svc.readAll st.round name = .ok operationName)
    (hpoll : svc.poll st.round operationName = .ok (some resp))
    (hwrite : (writeResults svc st.round resp.Results "").2 = none) :
    loopBody svc st = .next
      { round := st.round + 1,
        writers := st.writers ++ [(TrimPrefix name "progress-" ++ ".txt", specTranscript resp)],
        deleted := st.deleted ++ [name] } := by
  have hw : writeResults svc st.round resp.Results "" =
      ((writeResults svc st.round resp.Results "").1, none) := by
    rw [← hwrite]
  have hout := writeResults_ok svc st.round resp.Results "" _ hw
  have hspec : (writeResults svc st.round resp.Results "").1 = specTranscript resp := by
    rw [hout]; simp [specTranscript]
  unfold loopBody
  simp only [hnext, hreader, hread, hpoll]
  rw [hw, hspec]
  simp

theorem loopBody_writes_transcript_witness :
    (smoothServices ["progress-abc/song.mp3_output.flac"] (some sampleResponse)).iterNext 0 =
      .ok "progress-abc/song.mp3_output.flac" ∧
    (writeResults (smoothServices ["progress-abc/song.mp3_output.flac"] (some sampleResponse))
      0 sampleResponse.Results "").2 = none ∧
    specTranscript sampleResponse = "hello world\nhallo world\ngood bye\n" ∧
    TrackProgress (smoothServices ["progress-abc/song.mp3_output.flac"] (some sampleResponse)) 2
      = some (some Error.iteratorDone,
          { round := 1,
            writers := [("abc/song.mp3_output.flac.txt", "hello world\nhallo world\ngood bye\n")],
            deleted := ["progress-abc/song.mp3_output.flac"] }) ∧
    loopBody (smoothServices ["progress-abc/song.mp3_output.flac"] (some sampleResponse))
        { round := 0, writers := [], deleted := [] } = .next
      { round := 1,
        writers := [("abc/song.mp3_output.flac.txt", "hello world\nhallo world\ngood bye\n")],
        deleted := ["progress-abc/song.mp3_output.flac"] } :=
  ⟨rfl, by decide, by decide, by decide,
    loopBody_writes_transcript
      (smoothServices ["progress-abc/song.mp3_output.flac"] (some sampleResponse))
      { round := 0, writers := [], deleted := [] } "progress-abc/song.mp3_output.flac"
      "operations/progress-abc/song.mp3_output.flac" sampleResponse rfl rfl rfl rfl
      (by decide)⟩

/-! ## The exits of the scan loop -/

theorem loopBody_cases (svc : Services) (st : State) :
    (∃ e st1, loopBody svc st = .ret (some e) st1) ∨
      (∃ st1, loopBody svc st = .next st1 ∧ st1.round = st.round + 1) := by
  unfold loopBody
  split
  · exact Or.inl ⟨_, _, rfl⟩
  · split
    · exact Or.inl ⟨_, _, rfl⟩
    · split
      · exact Or.inl ⟨_, _, rfl⟩
      · split
        · exact Or.inl ⟨_, _, rfl⟩
        · split
          · simp only [ne_eq, not_true_eq_false, if_false]
            split
            · exact Or.inl ⟨_, _, rfl⟩
            · exact Or.inr ⟨_, rfl, rfl⟩
          · exact Or.inr ⟨_, rfl, rfl⟩

theorem loopBody_listing_end (svc : Services) (st : State) (e : Error)
    (h : svc.iterNext st.round = .error e) : loopBody svc st = .ret (some e) st := by
  unfold loopBody
  simp only [h]

theorem scanLoop_error (svc : Services) (fuel : Nat) (st : State) (err : Option Error)
    (st1 : State) (h : scanLoop svc fuel st = some (err, st1)) : err ≠ none := by
  induction fuel generalizing st with
  | zero => simp [scanLoop] at h
  | succ fuel ih =>
    unfold scanLoop at h
    rcases loopBody_cases svc st with ⟨e, st2, hb⟩ | ⟨st2, hb, _⟩
    · rw [hb] at h
      simp only [Option.some.injEq, Prod.mk.injEq] at h
      rw [← h.1]
      simp
    · rw [hb] at h
      exact ih st2 h

theorem scanLoop_returns (svc : Services) (n : Nat) (e : Error)
    (hend : svc.iterNext n = .error e) (d : Nat) (st : State) (hst : st.round + d = n) :
    ∃ err st1, scanLoop svc (d + 1) st = some (some err, st1) := by
  induction d generalizing st with
  | zero =>
    have hr : st.round = n := by omega
    have hb := loopBody_listing_end svc st e (by rw [hr]; exact hend)
    exact ⟨e, st, by simp [scanLoop, hb]⟩
  | succ d ih =>
    rcases loopBody_cases svc st with ⟨e1, st2, hb⟩ | ⟨st2, hb, hround⟩
    · exact ⟨e1, st2, by rw [scanLoop, hb]⟩
    · obtain ⟨err, st1, h1⟩ := ih st2 (by omega)
      exact ⟨err, st1, by rw [scanLoop, hb]; exact h1⟩

theorem writeAlternatives_smooth (svc : Services) (k : Nat)
    (hwrite : ∀ buf line, svc.fprintln k buf line = none)
    (alts : List SpeechRecognitionAlternative) (buf : String) :
    (writeAlternatives svc k alts buf).2 = none := by
  induction alts generalizing buf with
  | nil => rfl
  | cons alt rest ih =>
    unfold writeAlternatives
    simp only [hwrite]
    exact ih _

theorem writeResults_smooth (svc : Services) (k : Nat)
    (hwrite : ∀ buf line, svc.fprintln k buf line = none)
    (results : List SpeechRecognitionResult) (buf : String) :
    (writeResults svc k results buf).2 = none := by
  induction results generalizing buf with
  | nil => rfl
  | cons res rest ih =>
    unfold writeResults
    have h1 := writeAlternatives_smooth svc k hwrite res.Alternatives buf
    split
    · rename_i hw
      rw [hw] at h1
      simp at h1
    · exact ih _

theorem loopBody_smooth (svc : Services) (st : State)
    (hnext : ∃ name, svc.iterNext st.round = .ok name)
    (hreader : ∀ k name, svc.newReader k name = none)
    (hread : ∀ k name, ∃ op, svc.readAll k name = .ok op)
    (hpoll : ∀ k op, ∃ r, svc.poll k op = .ok r)
    (hwrite : ∀ k buf line, svc.fprintln k buf line = none) :
    ∃ st1, loopBody svc st = .next st1 ∧ st1.round = st.round + 1 := by
  obtain ⟨name, hname⟩ := hnext
  obtain ⟨op, hop⟩ := hread st.round name
  obtain ⟨r, hr⟩ := hpoll st.round op
  unfold loopBody
  simp only [hname, hreader, hop, hr]
  cases r with
  | none => exact ⟨_, rfl, rfl⟩
  | some resp =>
    have hw := writeResults_smooth svc st.round (hwrite st.round) resp.Results ""
    simp only [ne_eq, not_true_eq_false, if_false]
    split
    · rename_i heq
      rw [heq] at hw
      simp at hw
    · exact ⟨_, rfl, rfl⟩

theorem scanLoop_smooth (svc : Services) (n : Nat)
    (hitems : ∀ k, k < n → ∃ name, svc.iterNext k = .ok name)
    (hend : svc.iterNext n = .error Error.iteratorDone)
    (hreader : ∀ k name, svc.newReader k name = none)
    (hread : ∀ k name, ∃ op, svc.readAll k name = .ok op)
    (hpoll : ∀ k op, ∃ r, svc.poll k op = .ok r)
    (hwrite : ∀ k buf line, svc.fprintln k buf line = none)
    (d : Nat) (st : State) (hst : st.round + d = n) :
    ∃ st1, scanLoop svc (d + 1) st = some (some Error.iteratorDone, st1) ∧ st1.round = n := by
  induction d generalizing st with
  | zero =>
    have hr : st.round = n := by omega
    have hb := loopBody_listing_end svc st Error.iteratorDone (by rw [hr]; exact hend)
    exact ⟨st, by simp [scanLoop, hb], hr⟩
  | succ d ih =>
    obtain ⟨st2, hb, hround⟩ :=
      loopBody_smooth svc st (hitems st.round (by omega)) hreader hread hpoll hwrite
    obtain ⟨st1, h1, h2⟩ := ih st2 (by omega)
    exact ⟨st1, by rw [scanLoop, hb]; exact h1, h2⟩

/-- C10 (no successful return). Whatever the storage and speech services do: every result
that `TrackProgress` returns is a non-nil error; it does return, with a non-nil error, as soon
as `iter.Next()` reports an error, the end of the listing included; and a sweep in which both
clients are created, the listing ends regularly after `n` markers and every read, poll and
write succeeds returns the end-of-listing sentinel `iterator.Done` as its error. -/
theorem TrackProgress_never_succeeds (svc : Services) :
    (∀ fuel err st, TrackProgress svc fuel = some (err, st) → err ≠ none) ∧
    (∀ n e, svc.iterNext n = .error e →
      ∃ err st, TrackProgress svc (n + 1) = some (some err, st)) ∧
    (∀ n, svc.speechNewClient = none → svc.storageNewClient = none →
      (∀ k, k < n → ∃ name, svc.iterNext k = .ok name) →
      svc.iterNext n = .error Error.iteratorDone →
      (∀ k name, svc.newReader k name = none) →
      (∀ k name, ∃ op, svc.readAll k name = .ok op) →
      (∀ k op, ∃ r, svc.poll k op = .ok r) →
      (∀ k buf line, svc.fprintln k buf line = none) →
      ∃ st, TrackProgress svc (n + 1) = some (some Error.iteratorDone, st) ∧ st.round = n) := by
  refine ⟨?_, ?_, ?_⟩
  · intro fuel err st h
    unfold TrackProgress at h
    simp only at h
    split at h
    · simp only [Option.some.injEq, Prod.mk.injEq] at h
      rw [← h.1]; simp
    · split at h
      · simp only [Option.some.injEq, Prod.mk.injEq] at h
        rw [← h.1]; simp
      · exact scanLoop_error svc fuel _ err st h
  · intro n e hend
    unfold TrackProgress
    simp only
    split
    · exact ⟨_, _, rfl⟩
    · split
      · exact ⟨_, _, rfl⟩
      · exact scanLoop_returns svc n e hend n _ (by simp)
  · intro n hc1 hc2 hitems hend hreader hread hpoll hwrite
    unfold TrackProgress
    simp only [hc1, hc2]
    exact scanLoop_smooth svc n hitems hend hreader hread hpoll hwrite n _ (by simp)

theorem TrackProgress_never_succeeds_witness :
    TrackProgress (smoothServices ["progress-a/x_output.flac", "progress-b/y_output.flac"] none) 3
      = some (some Error.iteratorDone, { round := 2, writers := [], deleted := [] }) ∧
    ∃ err st, TrackProgress
      (smoothServices ["progress-a/x_output.flac", "progress-b/y_output.flac"] none) (2 + 1)
      = some (some err, st) :=
  ⟨by decide,
    (TrackProgress_never_succeeds
      (smoothServices ["progress-a/x_output.flac", "progress-b/y_output.flac"] none)).2.1
      2 Error.iteratorDone rfl⟩

end Trackprogress
